import Mathlib

/-!
Shallow embedding of the second-price sealed-bid auction simulator
(`auction.py`, `bidder.py`) and proofs of its specified properties.

Money amounts are modelled as rationals (`ℚ`).  Python `round(x, 3)` is
modelled by `round3` below via the nearest-integer function `round`;
the two differ only on exact half-thousandths (banker rounding versus
round-half-up), a set on which none of the verified properties depend.
Randomness (user selection, the beta sample inside `Bidder.bid`,
tie-break choice, click outcome) is passed in as explicit oracle
arguments, and the transcendental operations `np.log` / `np.sqrt` used
only inside the unclamped bid computation are abstracted as oracle
functions `logO` / `sqrtO`, universally quantified in every theorem.
-/

/-- Python round(x, 3): nearest multiple of 1/1000. -/
def round3 (q : ℚ) : ℚ := (round (q * 1000) : ℚ) / 1000

/-- auction_config entry min_bid (bidder.py line 54). -/
def min_bid : ℚ := 1 / 100

/-- auction_config entry max_bid (bidder.py line 55). -/
def max_bid : ℚ := 95 / 100

/-- auction_config entry exploration_factor (bidder.py line 53). -/
def exploration_factor : ℚ := 2

/-- State of one bidding agent (class Bidder, bidder.py).  The numpy
arrays of user_data are modelled as functions from user id; the numpy
float counters clicks and impressions are kept as rationals as in the
source. -/
structure Bidder where
  num_users : ℕ
  num_rounds : ℕ
  clicks : ℕ → ℚ
  impressions : ℕ → ℚ
  click_probs : ℕ → ℚ
  winning_prices : ℕ → List ℚ
  current_round : ℕ
  last_user_id : Option ℕ
  last_bid : Option ℚ

/-- Bidder.__init__ (bidder.py lines 34-60). -/
def Bidder.init (num_users num_rounds : ℕ) : Bidder where
  num_users := num_users
  num_rounds := num_rounds
  clicks := fun _ => 0
  impressions := fun _ => 0
  click_probs := fun _ => 45 / 100
  winning_prices := fun _ => []
  current_round := 0
  last_user_id := none
  last_bid := none

/-- Bidder.bid lines 76-126: the unclamped bid amount, computed from the
state AFTER the round counter increment.  `sampled` is the oracle for
np.random.beta(alpha, beta); `logO` and `sqrtO` are oracles for np.log
and np.sqrt. -/
def Bidder.bidAmountRaw (sampled : ℚ) (logO sqrtO : ℚ → ℚ) (st : Bidder)
    (user_id : ℕ) : ℚ :=
  let clicks := st.clicks user_id
  let impressions := st.impressions user_id
  let winning_prices := st.winning_prices user_id
  let progress : ℚ := (st.current_round : ℚ) / (st.num_rounds : ℚ)
  let exploration_decay : ℚ :=
    1 / (1 + (st.current_round : ℚ) / (st.num_rounds : ℚ))
  let estimated_value : ℚ :=
    if impressions = 0 then 1 / 2 else clicks / impressions
  let exploration_bonus : ℚ :=
    if impressions = 0 then exploration_factor * exploration_decay
    else exploration_factor *
      sqrtO (logO ((st.current_round : ℚ) + 1) / (impressions + 1))
  let value_estimate := sampled + exploration_bonus * (1 - sampled)
  let bid_amount :=
    if winning_prices.isEmpty then value_estimate
    else
      let avg_price := winning_prices.sum / (winning_prices.length : ℚ)
      if avg_price < value_estimate then
        min value_estimate (avg_price * (11 / 10))
      else value_estimate * (9 / 10)
  if progress < 1 / 5 then max bid_amount (min_bid * 3)
  else if 4 / 5 < progress then
    if 7 / 10 < estimated_value then max bid_amount (value_estimate * (95 / 100))
    else min bid_amount (value_estimate * (4 / 5))
  else bid_amount

/-- Bidder.bid (bidder.py lines 61-132): increments the round counter,
records the pending attribution key, computes the raw amount, clamps it
to [min_bid, max_bid], rounds to 3 decimals, stores it as last_bid and
returns it together with the new state. -/
def Bidder.bid (sampled : ℚ) (logO sqrtO : ℚ → ℚ) (st : Bidder)
    (user_id : ℕ) : ℚ × Bidder :=
  let st1 : Bidder :=
    { st with current_round := st.current_round + 1, last_user_id := some user_id }
  let bid_amount := Bidder.bidAmountRaw sampled logO sqrtO st1 user_id
  let b := round3 (max min_bid (min max_bid bid_amount))
  (b, { st1 with last_bid := some b })

/-- Bidder.notify (bidder.py lines 133-163).  `clicked` is Bool or None
in Python; the Python truthiness test `if clicked:` succeeds exactly on
`some true`. -/
def Bidder.notify (st : Bidder) (auction_winner : Bool) (winning_price : ℚ)
    (clicked : Option Bool) : Bidder :=
  match st.last_user_id with
  | none => st
  | some user_id =>
    let wp0 := st.winning_prices user_id ++ [winning_price]
    let wp := if 10 < wp0.length then wp0.drop 1 else wp0
    let wps := Function.update st.winning_prices user_id wp
    let st1 : Bidder := { st with winning_prices := wps }
    if auction_winner then
      let imps := Function.update st1.impressions user_id (st1.impressions user_id + 1)
      let st2 : Bidder := { st1 with impressions := imps }
      let cls := Function.update st2.clicks user_id (st2.clicks user_id + 1)
      let st3 : Bidder := if clicked = some true then { st2 with clicks := cls } else st2
      let cps := Function.update st3.click_probs user_id (st3.clicks user_id / st3.impressions user_id)
      if 0 < st3.impressions user_id then { st3 with click_probs := cps }
      else st3
    else st1

/-- One call in the bid/notify protocol of a bidder. -/
inductive BidderOp where
  | bidOp (user_id : ℕ) (sampled : ℚ) (logO sqrtO : ℚ → ℚ)
  | notifyOp (auction_winner : Bool) (winning_price : ℚ) (clicked : Option Bool)

/-- Apply one protocol call to a bidder state. -/
def BidderOp.apply (op : BidderOp) (st : Bidder) : Bidder :=
  match op with
  | .bidOp u s lo so => (Bidder.bid s lo so st u).2
  | .notifyOp w p c => Bidder.notify st w p c

/-- Run a finite sequence of bid/notify calls from a state. -/
def runOps : List BidderOp → Bidder → Bidder
  | [], st => st
  | op :: rest, st => runOps rest (op.apply st)

/-!
Auction embedding (class Auction, auction.py).  Bidders are indexed by
`Fin n`; the auction is parametric in the bidder implementation: an
abstract state type `β` together with the two callbacks `bidFn`
(Bidder.bid, returning the amount and the mutated state) and `notifyFn`
(Bidder.notify).  The random draws of a round — the selected user index,
the tie-break choice of random.choice, and the click outcome of
User.show_ad — are oracle arguments of `executeRound`.
-/

/-- State of class Auction (auction.py lines 58-65): the per-bidder
balances and histories, the round counter, the user pool size, and the
states of the bidder objects themselves. -/
structure AuctionState (n : ℕ) (β : Type) where
  num_users : ℕ
  states : Fin n → β
  balances : Fin n → ℚ
  history : Fin n → List ℚ
  round_number : ℕ

/-- Auction.__init__ (auction.py lines 58-65): balances start at 0,
histories empty, round counter 0. -/
def AuctionState.init (n : ℕ) (β : Type) (num_users : ℕ) (states : Fin n → β) :
    AuctionState n β where
  num_users := num_users
  states := states
  balances := fun _ => 0
  history := fun _ => []
  round_number := 0

/-- auction.py line 87: bids are clamped to be nonnegative after
rounding to 3 decimals, max(0, round(bid_amount, 3)). -/
def clampBid (q : ℚ) : ℚ := max 0 (round3 q)

/-- auction.py line 83: the active bidders, in bidder-list order —
exactly those whose balance is at least -1000. -/
def activeList {n : ℕ} (balances : Fin n → ℚ) : List (Fin n) :=
  (List.finRange n).filter (fun i => -1000 ≤ balances i)

/-- auction.py lines 84-88: solicit a bid from each listed bidder in
order, threading the bidder-state mutations done by Bidder.bid, and
record the clamped amounts keyed by bidder. -/
def collectBids {n : ℕ} {β : Type} (bidFn : β → ℕ → ℚ × β) (u : ℕ) :
    List (Fin n) → (Fin n → β) → List (Fin n × ℚ) × (Fin n → β)
  | [], sts => ([], sts)
  | i :: rest, sts =>
    let r := bidFn (sts i) u
    let res := collectBids bidFn u rest (Function.update sts i r.2)
    ((i, clampBid r.1) :: res.1, res.2)

/-- Maximum of a list of rationals, as Python max on a nonempty list. -/
def listMax : List ℚ → ℚ
  | [] => 0
  | [a] => a
  | a :: b :: rest => max a (listMax (b :: rest))

/-- auction.py lines 91-100: resolve the winner and the clearing
(second) price from the nonempty bid list; `choice` is the oracle for
random.choice over the tied maximal bidders.  Returns none exactly when
the bid list is empty (the no-op branch of line 89). -/
def resolve {n : ℕ} (choice : ℕ) (bids : List (Fin n × ℚ)) :
    Option (Fin n × ℚ) :=
  match bids with
  | [] => none
  | (j, a) :: rest =>
    let all := (j, a) :: rest
    let max_bid := listMax (all.map Prod.snd)
    let max_bidders := (all.filter (fun p => p.2 == max_bid)).map Prod.fst
    let winner := max_bidders.getD (choice % max_bidders.length) j
    let second_price :=
      if 1 < max_bidders.length then max_bid
      else
        let second_bids := (all.filter (fun p => p.1 != winner)).map Prod.snd
        if second_bids.isEmpty then 0 else listMax second_bids
    some (winner, second_price)

/-- auction.py lines 102-106: notify every active bidder in order, the
winner with (True, price, clicked), the others with (False, price, None),
threading the bidder-state mutations. -/
def notifyAll {n : ℕ} {β : Type} (notifyFn : β → Bool → ℚ → Option Bool → β)
    (winner : Fin n) (price : ℚ) (clicked : Bool) :
    List (Fin n) → (Fin n → β) → (Fin n → β)
  | [], sts => sts
  | i :: rest, sts =>
    let b := if i = winner then notifyFn (sts i) true price (some clicked)
             else notifyFn (sts i) false price none
    notifyAll notifyFn winner price clicked rest (Function.update sts i b)

/-- Auction.execute_round (auction.py lines 66-111).  `userIndex` is the
oracle for random.randrange(len(users)), `choice` for random.choice,
`clicked` for selected_user.show_ad().  Lines 110-111 are reproduced as
written: the loop runs once per bidder in the full bidder list but each
iteration appends the WINNER balance to the WINNER history, so the
winner history grows by n entries and every other history is untouched. -/
def executeRound {n : ℕ} {β : Type} (bidFn : β → ℕ → ℚ × β)
    (notifyFn : β → Bool → ℚ → Option Bool → β)
    (userIndex choice : ℕ) (clicked : Bool) (st : AuctionState n β) :
    AuctionState n β :=
  let rn := st.round_number + 1
  let active := activeList st.balances
  let collected := collectBids bidFn userIndex active st.states
  let bids := collected.1
  match resolve choice bids with
  | none => { st with round_number := rn, states := collected.2 }
  | some (winner, second_price) =>
    let states2 := notifyAll notifyFn winner second_price clicked active collected.2
    let reward : ℚ := if clicked then 1 else 0
    let newBal := st.balances winner + reward - second_price
    let balances1 := Function.update st.balances winner newBal
    let hist1 :=
      Function.update st.history winner
        (st.history winner ++ List.replicate n (balances1 winner))
    { num_users := st.num_users, states := states2, balances := balances1,
      history := hist1, round_number := rn }

/-- Run a finite sequence of rounds; each entry of the oracle list is
(userIndex, choice, clicked) for one call of execute_round. -/
def runRounds {n : ℕ} {β : Type} (bidFn : β → ℕ → ℚ × β)
    (notifyFn : β → Bool → ℚ → Option Bool → β) :
    List (ℕ × ℕ × Bool) → AuctionState n β → AuctionState n β
  | [], st => st
  | (u, c, k) :: rest, st =>
    runRounds bidFn notifyFn rest (executeRound bidFn notifyFn u c k st)

/-! Rounding and clamping lemmas. -/

lemma round_rat_mono {a b : ℚ} (h : a ≤ b) : round a ≤ round b := by
  rw [round_eq, round_eq]
  exact Int.floor_le_floor (by linarith)

lemma round3_mono {a b : ℚ} (h : a ≤ b) : round3 a ≤ round3 b := by
  unfold round3
  have h1 : round (a * 1000) ≤ round (b * 1000) :=
    round_rat_mono (by linarith)
  have h2 : ((round (a * 1000) : ℤ) : ℚ) ≤ ((round (b * 1000) : ℤ) : ℚ) := by
    exact_mod_cast h1
  linarith

lemma round3_min_bid : round3 min_bid = min_bid := by
  have h : min_bid * 1000 = ((10 : ℤ) : ℚ) := by norm_num [min_bid]
  rw [round3, h, round_intCast]
  norm_num [min_bid]

lemma round3_max_bid : round3 max_bid = max_bid := by
  have h : max_bid * 1000 = ((950 : ℤ) : ℚ) := by norm_num [max_bid]
  rw [round3, h, round_intCast]
  norm_num [max_bid]

lemma round3_clamp_bounds (x : ℚ) :
    min_bid ≤ round3 (max min_bid (min max_bid x)) ∧
    round3 (max min_bid (min max_bid x)) ≤ max_bid := by
  constructor
  · have h := round3_mono (le_max_left min_bid (min max_bid x))
    rw [round3_min_bid] at h
    exact h
  · have hle : max min_bid (min max_bid x) ≤ max_bid :=
      max_le (by norm_num [min_bid, max_bid]) (min_le_left _ _)
    have h := round3_mono hle
    rw [round3_max_bid] at h
    exact h

lemma round3_thousandths (q : ℚ) : ∃ k : ℤ, round3 q = (k : ℚ) / 1000 :=
  ⟨round (q * 1000), rfl⟩

/-- C7: for every call to Bidder.bid — whatever the internal beta sample
and whatever values the log/sqrt oracles take — the returned amount lies
in [min_bid, max_bid] and is an integer multiple of 1/1000 (at most 3
decimal places). -/
theorem bid_in_range_three_decimals (st : Bidder) (user_id : ℕ)
    (sampled : ℚ) (logO sqrtO : ℚ → ℚ)
    (h1 : 1 ≤ st.num_rounds) (h2 : user_id < st.num_users) :
    min_bid ≤ (Bidder.bid sampled logO sqrtO st user_id).1 ∧
    (Bidder.bid sampled logO sqrtO st user_id).1 ≤ max_bid ∧
    ∃ k : ℤ, (Bidder.bid sampled logO sqrtO st user_id).1 = (k : ℚ) / 1000 := by
  have hfst : (Bidder.bid sampled logO sqrtO st user_id).1 =
      round3 (max min_bid (min max_bid
        (Bidder.bidAmountRaw sampled logO sqrtO
          { st with current_round := st.current_round + 1,
                    last_user_id := some user_id } user_id))) := rfl
  rw [hfst]
  exact ⟨(round3_clamp_bounds _).1, (round3_clamp_bounds _).2,
    round3_thousandths _⟩

/-- Witness for C7 at a concrete input. -/
theorem bid_in_range_three_decimals_witness :
    1 ≤ (Bidder.init 3 10).num_rounds ∧ 0 < (Bidder.init 3 10).num_users ∧
    min_bid ≤ (Bidder.bid (1/2) id id (Bidder.init 3 10) 0).1 ∧
    (Bidder.bid (1/2) id id (Bidder.init 3 10) 0).1 ≤ max_bid ∧
    ∃ k : ℤ, (Bidder.bid (1/2) id id (Bidder.init 3 10) 0).1 = (k : ℚ) / 1000 :=
  ⟨by decide, by decide,
    bid_in_range_three_decimals (Bidder.init 3 10) 0 (1/2) id id
      (by decide) (by decide)⟩

/-! Counter invariant: clicks between 0 and impressions, per target. -/

/-- Per-target counter sanity: clicks nonnegative and at most impressions. -/
def counterInv (st : Bidder) : Prop :=
  ∀ u, 0 ≤ st.clicks u ∧ st.clicks u ≤ st.impressions u

lemma counterInv_bid {st : Bidder} (h : counterInv st)
    (s : ℚ) (lo so : ℚ → ℚ) (u : ℕ) :
    counterInv (Bidder.bid s lo so st u).2 := by
  intro v
  exact h v

/-- Field computation for notify: the clicks array. -/
lemma notify_clicks (st : Bidder) (w : Bool) (p : ℚ) (c : Option Bool) :
    (Bidder.notify st w p c).clicks =
      match st.last_user_id with
      | none => st.clicks
      | some uid =>
        if w = true ∧ c = some true then
          Function.update st.clicks uid (st.clicks uid + 1)
        else st.clicks := by
  unfold Bidder.notify
  cases hl : st.last_user_id with
  | none => rfl
  | some uid =>
    cases w with
    | false => simp
    | true =>
      by_cases hc : c = some true
      · simp only [Bool.true_eq, if_true, hc, and_self, if_pos]
        split <;> rfl
      · simp only [Bool.true_eq, if_true, true_and, hc, if_neg, if_false,
          not_false_eq_true]
        split <;> rfl

/-- Field computation for notify: the impressions array. -/
lemma notify_impressions (st : Bidder) (w : Bool) (p : ℚ) (c : Option Bool) :
    (Bidder.notify st w p c).impressions =
      match st.last_user_id with
      | none => st.impressions
      | some uid =>
        if w = true then
          Function.update st.impressions uid (st.impressions uid + 1)
        else st.impressions := by
  unfold Bidder.notify
  cases hl : st.last_user_id with
  | none => rfl
  | some uid =>
    cases w with
    | false => simp
    | true =>
      by_cases hc : c = some true
      · simp only [Bool.true_eq, if_true, hc, if_pos]
        split <;> rfl
      · simp only [Bool.true_eq, if_true, hc, if_neg, if_false, not_false_eq_true]
        split <;> rfl

lemma counterInv_notify {st : Bidder} (h : counterInv st)
    (w : Bool) (p : ℚ) (c : Option Bool) :
    counterInv (Bidder.notify st w p c) := by
  intro v
  rw [notify_clicks, notify_impressions]
  cases hl : st.last_user_id with
  | none => exact h v
  | some uid =>
    simp only
    have hv := h v
    by_cases hwc : w = true ∧ c = some true
    · rw [if_pos hwc, if_pos hwc.1]
      by_cases huv : v = uid
      · subst huv
        simp only [Function.update_same]
        exact ⟨by linarith [hv.1], by linarith [hv.2]⟩
      · simp only [Function.update_noteq huv]
        exact hv
    · rw [if_neg hwc]
      by_cases hw : w = true
      · rw [if_pos hw]
        by_cases huv : v = uid
        · subst huv
          simp only [Function.update_same]
          exact ⟨hv.1, by linarith [hv.2]⟩
        · simp only [Function.update_noteq huv]
          exact hv
      · rw [if_neg hw]
        exact hv

lemma counterInv_runOps (ops : List BidderOp) :
    ∀ st : Bidder, counterInv st → counterInv (runOps ops st) := by
  induction ops with
  | nil => intro st h; exact h
  | cons op rest ih =>
    intro st h
    cases op with
    | bidOp u s lo so => exact ih _ (counterInv_bid h s lo so u)
    | notifyOp w p c => exact ih _ (counterInv_notify h w p c)

/-- C6: after any finite sequence of bid/notify calls on a fresh bidder,
every per-target click counter is nonnegative and bounded by the
impression counter of the same target. -/
theorem clicks_le_impressions (nu nr : ℕ) (ops : List BidderOp) (u : ℕ) :
    0 ≤ (runOps ops (Bidder.init nu nr)).clicks u ∧
    (runOps ops (Bidder.init nu nr)).clicks u ≤
      (runOps ops (Bidder.init nu nr)).impressions u := by
  have hinit : counterInv (Bidder.init nu nr) := by
    intro v
    constructor <;> norm_num [Bidder.init]
  exact counterInv_runOps ops _ hinit u

/-- C9: notifying a freshly constructed bidder (which has no pending
attribution key) is a silent no-op: the state is returned unchanged. -/
theorem notify_fresh_noop (nu nr : ℕ) (w : Bool) (p : ℚ) (c : Option Bool) :
    Bidder.notify (Bidder.init nu nr) w p c = Bidder.init nu nr := rfl

/-! Attribution-key behaviour of bid and notify. -/

/-- Bidder.bid records the targeted user as the pending attribution key. -/
lemma bid_last_user_id (s : ℚ) (lo so : ℚ → ℚ) (st : Bidder) (u : ℕ) :
    ((Bidder.bid s lo so st u).2).last_user_id = some u := rfl

/-- Bidder.bid does not touch the price windows. -/
lemma bid_winning_prices (s : ℚ) (lo so : ℚ → ℚ) (st : Bidder) (u : ℕ) :
    ((Bidder.bid s lo so st u).2).winning_prices = st.winning_prices := rfl

/-- Bidder.notify never modifies the pending attribution key. -/
lemma notify_last_user_id (st : Bidder) (w : Bool) (p : ℚ) (c : Option Bool) :
    (Bidder.notify st w p c).last_user_id = st.last_user_id := by
  unfold Bidder.notify
  cases hl : st.last_user_id with
  | none => exact hl
  | some uid =>
    cases w with
    | false => simp
    | true =>
      by_cases hc : c = some true
      · simp only [Bool.true_eq, if_true, hc, if_pos]
        split <;> rfl
      · simp only [Bool.true_eq, if_true, hc, if_neg, if_false, not_false_eq_true]
        split <;> rfl

/-- The FIFO update notify performs on a price window: append the new
price at the end, dropping the oldest entry if capacity 10 is exceeded
(bidder.py lines 148-153). -/
def fifoPush (l : List ℚ) (p : ℚ) : List ℚ :=
  if 10 < (l ++ [p]).length then (l ++ [p]).drop 1 else l ++ [p]

/-- Field computation for notify: the price windows.  When there is a
pending attribution key, exactly that window receives the FIFO push,
whether the auction was won or lost. -/
lemma notify_winning_prices {st : Bidder} {uid : ℕ}
    (h : st.last_user_id = some uid) (w : Bool) (p : ℚ) (c : Option Bool) :
    (Bidder.notify st w p c).winning_prices =
      Function.update st.winning_prices uid (fifoPush (st.winning_prices uid) p) := by
  unfold Bidder.notify fifoPush
  rw [h]
  cases w with
  | false => simp
  | true =>
    by_cases hc : c = some true
    · simp only [Bool.true_eq, if_true, hc, if_pos]
      split <;> rfl
    · simp only [Bool.true_eq, if_true, hc, if_neg, if_false, not_false_eq_true]
      split <;> rfl

/-- C10: Bidder.notify never clears the pending attribution key.  After
a bid on target u the key is some u; every notify call preserves the
key, so a second or later notify with no intervening bid is still
attributed to u and still mutates the state: the price is pushed onto
the window of u, and when won=true the impression counter of u is
incremented. -/
theorem notify_keeps_pending_key (st : Bidder) (u : ℕ) (w : Bool) (p : ℚ)
    (c : Option Bool) (s : ℚ) (lo so : ℚ → ℚ)
    (h : st.last_user_id = some u) :
    ((Bidder.bid s lo so st u).2).last_user_id = some u ∧
    (Bidder.notify st w p c).last_user_id = some u ∧
    (Bidder.notify st w p c).winning_prices u = fifoPush (st.winning_prices u) p ∧
    (w = true →
      (Bidder.notify st w p c).impressions u = st.impressions u + 1) := by
  refine ⟨bid_last_user_id s lo so st u, ?_, ?_, ?_⟩
  · rw [notify_last_user_id, h]
  · rw [notify_winning_prices h, Function.update_same]
  · intro hw
    rw [notify_impressions, h]
    simp only [hw, if_true, Function.update_same]

/-- Witness for C10: a concrete bidder that has bid on target 0 and is
then notified of a lost auction; the notify is attributed to target 0
and pushes the price even though there was no win. -/
theorem notify_keeps_pending_key_witness :
    ((Bidder.bid (1/2) id id ((Bidder.bid (1/2) id id (Bidder.init 2 10) 0).2) 0).2).last_user_id = some 0 ∧
    (Bidder.notify ((Bidder.bid (1/2) id id (Bidder.init 2 10) 0).2) false (2/5) none).last_user_id = some 0 ∧
    (Bidder.notify ((Bidder.bid (1/2) id id (Bidder.init 2 10) 0).2) false (2/5) none).winning_prices 0 =
      fifoPush (((Bidder.bid (1/2) id id (Bidder.init 2 10) 0).2).winning_prices 0) (2/5) ∧
    (false = true →
      (Bidder.notify ((Bidder.bid (1/2) id id (Bidder.init 2 10) 0).2) false (2/5) none).impressions 0 =
        ((Bidder.bid (1/2) id id (Bidder.init 2 10) 0).2).impressions 0 + 1) :=
  notify_keeps_pending_key ((Bidder.bid (1/2) id id (Bidder.init 2 10) 0).2)
    0 false (2/5) none (1/2) id id rfl

/-! The per-target clearing-price window: capacity 10, FIFO. -/

/-- The last k elements of a list. -/
def takeLast (k : ℕ) (l : List ℚ) : List ℚ := l.drop (l.length - k)

lemma takeLast_length (k : ℕ) (l : List ℚ) :
    (takeLast k l).length = min k l.length := by
  simp only [takeLast, List.length_drop]
  omega

lemma takeLast_of_le {k : ℕ} {l : List ℚ} (h : l.length ≤ k) :
    takeLast k l = l := by
  simp only [takeLast, Nat.sub_eq_zero_of_le h, List.drop_zero]

lemma takeLast_suffix (k : ℕ) (l : List ℚ) : takeLast k l <:+ l :=
  List.drop_suffix _ _

lemma suffix_eq_of_length {α : Type} {s1 s2 l : List α}
    (h1 : s1 <:+ l) (h2 : s2 <:+ l) (h : s1.length = s2.length) : s1 = s2 := by
  obtain ⟨t1, ht1⟩ := h1
  obtain ⟨t2, ht2⟩ := h2
  have happ : t1 ++ s1 = t2 ++ s2 := by rw [ht1, ht2]
  have hlen : t1.length = t2.length := by
    have := congrArg List.length happ
    simp only [List.length_append] at this
    omega
  exact (List.append_inj happ hlen).2

lemma takeLast_append_takeLast (k : ℕ) (xs ys : List ℚ) :
    takeLast k (takeLast k xs ++ ys) = takeLast k (xs ++ ys) := by
  apply suffix_eq_of_length (l := xs ++ ys)
  · apply List.IsSuffix.trans (takeLast_suffix k _)
    obtain ⟨t, ht⟩ := takeLast_suffix k xs
    exact ⟨t, by rw [← List.append_assoc, ht]⟩
  · exact takeLast_suffix k _
  · rw [takeLast_length, takeLast_length, List.length_append,
      List.length_append, takeLast_length]
    omega

lemma fifoPush_eq_takeLast {l : List ℚ} (h : l.length ≤ 10) (p : ℚ) :
    fifoPush l p = takeLast 10 (l ++ [p]) := by
  unfold fifoPush
  by_cases h10 : 10 < (l ++ [p]).length
  · rw [if_pos h10]
    simp only [takeLast, List.length_append, List.length_cons, List.length_nil]
    congr 1
    simp only [List.length_append] at h10 ⊢
    simp only [List.length_cons, List.length_nil] at h10 ⊢
    omega
  · rw [if_neg h10]
    rw [takeLast_of_le (by omega)]

lemma fifoPush_length_le {l : List ℚ} (h : l.length ≤ 10) (p : ℚ) :
    (fifoPush l p).length ≤ 10 := by
  rw [fifoPush_eq_takeLast h, takeLast_length]
  omega

/-- Window-size invariant: every per-target price window holds at most
10 entries. -/
def windowInv (st : Bidder) : Prop :=
  ∀ u, (st.winning_prices u).length ≤ 10

lemma windowInv_bid {st : Bidder} (h : windowInv st)
    (s : ℚ) (lo so : ℚ → ℚ) (u : ℕ) :
    windowInv (Bidder.bid s lo so st u).2 := by
  intro v
  rw [bid_winning_prices]
  exact h v

lemma windowInv_notify {st : Bidder} (h : windowInv st)
    (w : Bool) (p : ℚ) (c : Option Bool) :
    windowInv (Bidder.notify st w p c) := by
  intro v
  cases hl : st.last_user_id with
  | none =>
    have : Bidder.notify st w p c = st := by
      unfold Bidder.notify
      rw [hl]
    rw [this]
    exact h v
  | some uid =>
    rw [notify_winning_prices hl]
    by_cases hv : v = uid
    · subst hv
      rw [Function.update_same]
      exact fifoPush_length_le (h v) p
    · rw [Function.update_noteq hv]
      exact h v

/-- notify with no pending attribution key is the identity. -/
lemma notify_none {st : Bidder} (h : st.last_user_id = none)
    (w : Bool) (p : ℚ) (c : Option Bool) : Bidder.notify st w p c = st := by
  unfold Bidder.notify
  rw [h]

/-- The clearing prices a run of the protocol attributes to target u:
one entry per notify call made while the pending attribution key is u,
in chronological order, whether the auction was won or lost. -/
def pricesFor (u : ℕ) : List BidderOp → Bidder → List ℚ
  | [], _ => []
  | .bidOp v s lo so :: rest, st =>
    pricesFor u rest ((BidderOp.bidOp v s lo so).apply st)
  | .notifyOp w p c :: rest, st =>
    (if st.last_user_id = some u then [p] else []) ++
      pricesFor u rest (Bidder.notify st w p c)

lemma runOps_window_eq (u : ℕ) (ops : List BidderOp) :
    ∀ st : Bidder, windowInv st →
      (runOps ops st).winning_prices u =
        takeLast 10 (st.winning_prices u ++ pricesFor u ops st) := by
  induction ops with
  | nil =>
    intro st h
    simp only [runOps, pricesFor, List.append_nil]
    exact (takeLast_of_le (h u)).symm
  | cons op rest ih =>
    intro st h
    cases op with
    | bidOp v s lo so =>
      have hw : windowInv ((BidderOp.bidOp v s lo so).apply st) :=
        windowInv_bid h s lo so v
      have := ih _ hw
      simp only [runOps, pricesFor]
      rw [this]
      simp only [BidderOp.apply, bid_winning_prices]
    | notifyOp w p c =>
      cases hl : st.last_user_id with
      | none =>
        have hn := notify_none hl w p c
        simp only [runOps, pricesFor, BidderOp.apply]
        rw [ih _ (by rw [hn]; exact h)]
        rw [hn, hl]
        simp
      | some uid =>
        have hwinv : windowInv (Bidder.notify st w p c) :=
          windowInv_notify h w p c
        simp only [runOps, pricesFor, BidderOp.apply]
        rw [ih _ hwinv, hl]
        by_cases huv : uid = u
        · subst huv
          rw [if_pos rfl]
          rw [notify_winning_prices hl, Function.update_same,
            fifoPush_eq_takeLast (h uid)]
          rw [takeLast_append_takeLast]
          simp
        · rw [if_neg (by simpa using huv)]
          rw [notify_winning_prices hl]
          rw [Function.update_noteq (fun hh => huv hh.symm)]
          simp

/-- C2 (amended): for every target u, after any finite sequence of
bid/notify calls on a fresh bidder, the price window of u is exactly the
(at most) 10 most recent clearing prices that notify attributed to u —
in chronological order, FIFO-evicted at capacity 10.  Prices are
recorded on every attributed notify, lost auctions included. -/
theorem price_window_fifo (nu nr : ℕ) (ops : List BidderOp) (u : ℕ) :
    (runOps ops (Bidder.init nu nr)).winning_prices u =
      takeLast 10 (pricesFor u ops (Bidder.init nu nr)) ∧
    ((runOps ops (Bidder.init nu nr)).winning_prices u).length ≤ 10 := by
  have hinv : windowInv (Bidder.init nu nr) := by
    intro v
    simp [Bidder.init]
  have h := runOps_window_eq u ops (Bidder.init nu nr) hinv
  constructor
  · rw [h]
    rfl
  · rw [h, takeLast_length]
    omega

/-- Counterexample to C2 as stated: a bidder that bids on target 0 and
is then notified of a LOST auction (won=false) nevertheless records the
clearing price 2/5 in the window of target 0, so windows do not contain
only prices from won rounds. -/
theorem price_window_lost_entry :
    (runOps [BidderOp.bidOp 0 (1/2) id id,
             BidderOp.notifyOp false (2/5) none]
       (Bidder.init 1 10)).winning_prices 0 = [2/5] := by
  show (Bidder.notify ((Bidder.bid (1/2) id id (Bidder.init 1 10) 0).2)
    false (2/5) none).winning_prices 0 = [2/5]
  rw [notify_winning_prices (bid_last_user_id (1/2) id id (Bidder.init 1 10) 0),
    Function.update_same]
  rfl

/-! Properties of listMax, collectBids, notifyAll and resolve. -/

lemma le_listMax : ∀ {l : List ℚ} {x : ℚ}, x ∈ l → x ≤ listMax l := by
  intro l
  induction l with
  | nil => intro x hx; cases hx
  | cons a t ih =>
    intro x hx
    cases t with
    | nil =>
      rw [List.mem_singleton] at hx
      subst hx
      exact le_refl _
    | cons b r =>
      rcases List.mem_cons.mp hx with h | h
      · subst h
        exact le_max_left _ _
      · exact le_trans (ih h) (le_max_right _ _)

lemma listMax_mem : ∀ {l : List ℚ}, l ≠ [] → listMax l ∈ l := by
  intro l
  induction l with
  | nil => intro h; exact absurd rfl h
  | cons a t ih =>
    intro _
    cases t with
    | nil => exact List.mem_singleton.mpr rfl
    | cons b r =>
      show max a (listMax (b :: r)) ∈ a :: b :: r
      rcases max_choice a (listMax (b :: r)) with h | h
      · rw [h]; exact List.mem_cons_self _ _
      · rw [h]
        exact List.mem_cons_of_mem _ (ih (by simp))

lemma listMax_le {l : List ℚ} {c : ℚ} (hne : l ≠ [])
    (h : ∀ x ∈ l, x ≤ c) : listMax l ≤ c :=
  h _ (listMax_mem hne)

lemma collectBids_fst {n : ℕ} {β : Type} (bidFn : β → ℕ → ℚ × β) (u : ℕ) :
    ∀ (l : List (Fin n)) (sts : Fin n → β),
      ((collectBids bidFn u l sts).1).map Prod.fst = l := by
  intro l
  induction l with
  | nil => intro sts; rfl
  | cons i rest ih =>
    intro sts
    simp only [collectBids, List.map_cons]
    rw [ih]

lemma collectBids_snd_nonneg {n : ℕ} {β : Type} (bidFn : β → ℕ → ℚ × β)
    (u : ℕ) :
    ∀ (l : List (Fin n)) (sts : Fin n → β) (q : Fin n × ℚ),
      q ∈ (collectBids bidFn u l sts).1 → 0 ≤ q.2 := by
  intro l
  induction l with
  | nil => intro sts q hq; cases hq
  | cons i rest ih =>
    intro sts q hq
    rcases List.mem_cons.mp hq with h | h
    · subst h
      exact le_max_left _ _
    · exact ih _ _ h

lemma collectBids_states_notMem {n : ℕ} {β : Type} (bidFn : β → ℕ → ℚ × β)
    (u : ℕ) :
    ∀ (l : List (Fin n)) (sts : Fin n → β) (i : Fin n), i ∉ l →
      (collectBids bidFn u l sts).2 i = sts i := by
  intro l
  induction l with
  | nil => intro sts i _; rfl
  | cons j rest ih =>
    intro sts i hi
    have hij : i ≠ j := fun h => hi (h ▸ List.mem_cons_self _ _)
    have hrest : i ∉ rest := fun h => hi (List.mem_cons_of_mem _ h)
    simp only [collectBids]
    rw [ih _ _ hrest, Function.update_noteq hij]

lemma notifyAll_states_notMem {n : ℕ} {β : Type}
    (notifyFn : β → Bool → ℚ → Option Bool → β)
    (w : Fin n) (p : ℚ) (k : Bool) :
    ∀ (l : List (Fin n)) (sts : Fin n → β) (i : Fin n), i ∉ l →
      notifyAll notifyFn w p k l sts i = sts i := by
  intro l
  induction l with
  | nil => intro sts i _; rfl
  | cons j rest ih =>
    intro sts i hi
    have hij : i ≠ j := fun h => hi (h ▸ List.mem_cons_self _ _)
    have hrest : i ∉ rest := fun h => hi (List.mem_cons_of_mem _ h)
    simp only [notifyAll]
    rw [ih _ _ hrest, Function.update_noteq hij]

lemma resolve_eq_none {n : ℕ} (choice : ℕ) {bids : List (Fin n × ℚ)} :
    resolve choice bids = none ↔ bids = [] := by
  cases bids with
  | nil => simp [resolve]
  | cons hd tl =>
    obtain ⟨j, a⟩ := hd
    simp [resolve]

lemma resolve_char {n : ℕ} (choice : ℕ) (j : Fin n) (a : ℚ)
    (rest : List (Fin n × ℚ))
    (m : ℚ) (hm : m = listMax (((j, a) :: rest).map Prod.snd))
    (tied : List (Fin n))
    (htied : tied = (((j, a) :: rest).filter (fun q => q.2 == m)).map Prod.fst)
    (hnn : ∀ q ∈ (j, a) :: rest, 0 ≤ Prod.snd q) :
    ∃ w p, resolve choice ((j, a) :: rest) = some (w, p) ∧ w ∈ tied ∧
      (w, m) ∈ (j, a) :: rest ∧ p ≤ m ∧
      (tied.length = 1 → tied = [w] ∧
        p = (if ((((j, a) :: rest).filter (fun q => q.1 != w)).map Prod.snd).isEmpty
             then 0
             else listMax ((((j, a) :: rest).filter (fun q => q.1 != w)).map Prod.snd))) ∧
      (1 < tied.length → p = m ∧
        ∀ b ∈ tied, ∃ c, resolve c ((j, a) :: rest) = some (b, m)) := by
  have hmmem : m ∈ ((j, a) :: rest).map Prod.snd := by
    rw [hm]
    exact listMax_mem (by simp)
  obtain ⟨q, hq, hq2⟩ := List.mem_map.mp hmmem
  have hqf : q ∈ ((j, a) :: rest).filter (fun r => r.2 == m) :=
    List.mem_filter.mpr ⟨hq, by simp [hq2]⟩
  have hq1tied : q.1 ∈ tied := by
    rw [htied]
    exact List.mem_map_of_mem _ hqf
  have hlen : 0 < tied.length :=
    List.length_pos.mpr (by intro h0; rw [h0] at hq1tied; cases hq1tied)
  have hidx : choice % tied.length < tied.length := Nat.mod_lt _ hlen
  have htiedsub : ∀ x ∈ tied, (x, m) ∈ (j, a) :: rest := by
    intro x hx
    rw [htied] at hx
    obtain ⟨r, hr, hr1⟩ := List.mem_map.mp hx
    have hr' := List.mem_filter.mp hr
    have hr2 : r.2 = m := by simpa using hr'.2
    have : r = (x, m) := by
      obtain ⟨r1, r2⟩ := r
      simp only [Prod.mk.injEq]
      exact ⟨hr1, hr2⟩
    rw [← this]
    exact hr'.1
  refine ⟨tied.getD (choice % tied.length) j,
    if 1 < tied.length then m
    else
      (if ((((j, a) :: rest).filter
            (fun q => q.1 != tied.getD (choice % tied.length) j)).map Prod.snd).isEmpty
       then 0
       else listMax ((((j, a) :: rest).filter
            (fun q => q.1 != tied.getD (choice % tied.length) j)).map Prod.snd)),
    ?_, ?_, ?_, ?_, ?_, ?_⟩
  · simp only [resolve]
    simp only [← hm, ← htied]
  · rw [List.getD_eq_getElem _ _ hidx]
    exact List.getElem_mem _
  · exact htiedsub _ (by rw [List.getD_eq_getElem _ _ hidx]; exact List.getElem_mem _)
  · by_cases h1 : 1 < tied.length
    · rw [if_pos h1]
    · rw [if_neg h1]
      have hm0 : 0 ≤ m := by
        rw [← hq2]
        exact hnn q hq
      by_cases hsb : ((((j, a) :: rest).filter
          (fun q => q.1 != tied.getD (choice % tied.length) j)).map Prod.snd).isEmpty
      · rw [if_pos hsb]
        exact hm0
      · rw [if_neg hsb]
        apply listMax_le
        · intro h0
          rw [h0] at hsb
          exact hsb rfl
        · intro x hx
          obtain ⟨r, hr, hr2⟩ := List.mem_map.mp hx
          have hr' := (List.mem_filter.mp hr).1
          have : x ∈ ((j, a) :: rest).map Prod.snd := by
            rw [← hr2]
            exact List.mem_map_of_mem _ hr'
          rw [hm]
          exact le_listMax this
  · intro hone
    obtain ⟨x, hx⟩ := List.length_eq_one.mp hone
    constructor
    · have hw : tied.getD (choice % tied.length) j ∈ tied := by
        rw [List.getD_eq_getElem _ _ hidx]
        exact List.getElem_mem _
      revert hw
      generalize tied.getD (choice % tied.length) j = w0
      intro hw
      rw [hx] at hw ⊢
      rw [List.mem_singleton.mp hw]
    · rw [if_neg (by omega)]
  · intro hmany
    constructor
    · rw [if_pos hmany]
    · intro b hb
      obtain ⟨i, hilt, hi⟩ := List.getElem_of_mem hb
      refine ⟨i, ?_⟩
      simp only [resolve]
      simp only [← hm, ← htied]
      rw [Nat.mod_eq_of_lt hilt, if_pos hmany]
      rw [List.getD_eq_getElem _ _ hilt, hi]

lemma resolve_winner_mem {n : ℕ} {choice : ℕ} {bids : List (Fin n × ℚ)}
    {w : Fin n} {p : ℚ}
    (hnn : ∀ q ∈ bids, 0 ≤ Prod.snd q)
    (h : resolve choice bids = some (w, p)) : w ∈ bids.map Prod.fst := by
  cases bids with
  | nil => cases h
  | cons hd tl =>
    obtain ⟨j, a⟩ := hd
    obtain ⟨w0, p0, hres, _, hw0bid, _⟩ :=
      resolve_char choice j a tl _ rfl _ rfl hnn
    rw [hres] at h
    have hw0 : w0 = w := (Prod.mk.injEq _ _ _ _).mp (Option.some.injEq _ _ ▸ h) |>.1
    rw [← hw0]
    exact List.mem_map_of_mem _ hw0bid

/-- C3: in any round with a nonempty active set, the resolved winner is
among the bidders tied at the maximum clamped bid; its recorded bid is
that maximum m and the clearing price p never exceeds m.  If exactly one
bidder attains the maximum it is the winner and p is the highest bid
among the other bidders (0 if there are none); if several tie, p is the
tied maximum itself and, as the tie-break oracle ranges over all values,
every tied bidder is a possible winner. -/
theorem winner_and_clearing_price {n : ℕ} {β : Type} (bidFn : β → ℕ → ℚ × β)
    (userIndex choice : ℕ) (st : AuctionState n β)
    (h : activeList st.balances ≠ []) :
    ∃ w p,
      resolve choice
        ((collectBids bidFn userIndex (activeList st.balances) st.states).1) =
          some (w, p) ∧
      w ∈ (((collectBids bidFn userIndex (activeList st.balances) st.states).1).filter
        (fun q => q.2 == listMax (((collectBids bidFn userIndex (activeList st.balances) st.states).1).map Prod.snd))).map Prod.fst ∧
      (w, listMax (((collectBids bidFn userIndex (activeList st.balances) st.states).1).map Prod.snd)) ∈
        (collectBids bidFn userIndex (activeList st.balances) st.states).1 ∧
      p ≤ listMax (((collectBids bidFn userIndex (activeList st.balances) st.states).1).map Prod.snd) ∧
      (((((collectBids bidFn userIndex (activeList st.balances) st.states).1).filter
          (fun q => q.2 == listMax (((collectBids bidFn userIndex (activeList st.balances) st.states).1).map Prod.snd))).map Prod.fst).length = 1 →
        (((collectBids bidFn userIndex (activeList st.balances) st.states).1).filter
          (fun q => q.2 == listMax (((collectBids bidFn userIndex (activeList st.balances) st.states).1).map Prod.snd))).map Prod.fst = [w] ∧
        p = (if ((((collectBids bidFn userIndex (activeList st.balances) st.states).1).filter
                (fun q => q.1 != w)).map Prod.snd).isEmpty then 0
             else listMax ((((collectBids bidFn userIndex (activeList st.balances) st.states).1).filter
                (fun q => q.1 != w)).map Prod.snd))) ∧
      (1 < ((((collectBids bidFn userIndex (activeList st.balances) st.states).1).filter
          (fun q => q.2 == listMax (((collectBids bidFn userIndex (activeList st.balances) st.states).1).map Prod.snd))).map Prod.fst).length →
        p = listMax (((collectBids bidFn userIndex (activeList st.balances) st.states).1).map Prod.snd) ∧
        ∀ b ∈ ((((collectBids bidFn userIndex (activeList st.balances) st.states).1).filter
            (fun q => q.2 == listMax (((collectBids bidFn userIndex (activeList st.balances) st.states).1).map Prod.snd))).map Prod.fst),
          ∃ c, resolve c ((collectBids bidFn userIndex (activeList st.balances) st.states).1) =
            some (b, listMax (((collectBids bidFn userIndex (activeList st.balances) st.states).1).map Prod.snd))) := by
  have hmapfst := collectBids_fst bidFn userIndex (activeList st.balances) st.states
  have hbne : (collectBids bidFn userIndex (activeList st.balances) st.states).1 ≠ [] := by
    intro h0
    apply h
    rw [← hmapfst, h0]
    rfl
  have hnn : ∀ q ∈ (collectBids bidFn userIndex (activeList st.balances) st.states).1,
      0 ≤ Prod.snd q :=
    collectBids_snd_nonneg bidFn userIndex _ _
  obtain ⟨hd, tl, hb⟩ := List.exists_cons_of_ne_nil hbne
  obtain ⟨j, a⟩ := hd
  rw [hb] at hnn
  simp only [hb]
  exact resolve_char choice j a tl _ rfl _ rfl hnn

/-- Concrete bidder callbacks for witnesses: the abstract bidder state
is just the fixed amount it always bids, and notify does nothing. -/
def exBidFn : ℚ → ℕ → ℚ × ℚ := fun b _ => (b, b)

def exNotifyFn : ℚ → Bool → ℚ → Option Bool → ℚ := fun b _ _ _ => b

def exStates : Fin 2 → ℚ := fun i => if i = 0 then 1/2 else 3/10

/-- A concrete two-bidder auction right after construction. -/
def exAuction : AuctionState 2 ℚ := AuctionState.init 2 ℚ 1 exStates

lemma exAuction_active_ne : activeList exAuction.balances ≠ [] := by
  apply List.ne_nil_of_mem (a := (0 : Fin 2))
  unfold activeList
  rw [List.mem_filter]
  refine ⟨List.mem_finRange 0, ?_⟩
  simp only [exAuction, AuctionState.init, decide_eq_true_eq]
  norm_num

/-- Witness for C3 at the concrete two-bidder auction. -/
theorem winner_and_clearing_price_witness :
    activeList exAuction.balances ≠ [] ∧
    ∃ w p,
      resolve 0 ((collectBids exBidFn 0 (activeList exAuction.balances) exAuction.states).1) =
        some (w, p) ∧
      w ∈ (((collectBids exBidFn 0 (activeList exAuction.balances) exAuction.states).1).filter
        (fun q => q.2 == listMax (((collectBids exBidFn 0 (activeList exAuction.balances) exAuction.states).1).map Prod.snd))).map Prod.fst :=
  ⟨exAuction_active_ne,
    match winner_and_clearing_price exBidFn 0 0 exAuction exAuction_active_ne with
    | ⟨w, p, h1, h2, _⟩ => ⟨w, p, h1, h2⟩⟩

/-! Reduction of executeRound on the two branches of resolve. -/

lemma executeRound_of_none {n : ℕ} {β : Type} (bidFn : β → ℕ → ℚ × β)
    (notifyFn : β → Bool → ℚ → Option Bool → β)
    (u c : ℕ) (k : Bool) (st : AuctionState n β)
    (hres : resolve c ((collectBids bidFn u (activeList st.balances) st.states).1) = none) :
    executeRound bidFn notifyFn u c k st =
      { st with round_number := st.round_number + 1,
                states := (collectBids bidFn u (activeList st.balances) st.states).2 } := by
  simp only [executeRound, hres]

lemma executeRound_of_some {n : ℕ} {β : Type} (bidFn : β → ℕ → ℚ × β)
    (notifyFn : β → Bool → ℚ → Option Bool → β)
    (u c : ℕ) (k : Bool) (st : AuctionState n β) (w : Fin n) (p : ℚ)
    (hres : resolve c ((collectBids bidFn u (activeList st.balances) st.states).1) =
      some (w, p)) :
    executeRound bidFn notifyFn u c k st =
      { num_users := st.num_users,
        states := notifyAll notifyFn w p k (activeList st.balances)
          ((collectBids bidFn u (activeList st.balances) st.states).2),
        balances := Function.update st.balances w
          (st.balances w + (if k then 1 else 0) - p),
        history := Function.update st.history w
          (st.history w ++ List.replicate n
            (Function.update st.balances w
              (st.balances w + (if k then 1 else 0) - p) w)),
        round_number := st.round_number + 1 } := by
  simp only [executeRound, hres]

/-- C4: in any round with a nonempty active set, exactly the winner has
its balance changed, by (1 if clicked else 0) minus the clearing price;
every other bidder keeps its balance. -/
theorem winner_balance_update {n : ℕ} {β : Type} (bidFn : β → ℕ → ℚ × β)
    (notifyFn : β → Bool → ℚ → Option Bool → β)
    (userIndex choice : ℕ) (clicked : Bool) (st : AuctionState n β)
    (h : activeList st.balances ≠ []) :
    ∃ w p,
      resolve choice
        ((collectBids bidFn userIndex (activeList st.balances) st.states).1) =
          some (w, p) ∧
      (executeRound bidFn notifyFn userIndex choice clicked st).balances w =
        st.balances w + (if clicked then 1 else 0) - p ∧
      ∀ i : Fin n, i ≠ w →
        (executeRound bidFn notifyFn userIndex choice clicked st).balances i =
          st.balances i := by
  have hbne : (collectBids bidFn userIndex (activeList st.balances) st.states).1 ≠ [] := by
    intro h0
    apply h
    rw [← collectBids_fst bidFn userIndex (activeList st.balances) st.states, h0]
    rfl
  cases hr : resolve choice
      ((collectBids bidFn userIndex (activeList st.balances) st.states).1) with
  | none => exact absurd ((resolve_eq_none choice).mp hr) hbne
  | some wp =>
    obtain ⟨w, p⟩ := wp
    refine ⟨w, p, rfl, ?_, ?_⟩
    · rw [executeRound_of_some bidFn notifyFn userIndex choice clicked st w p hr]
      simp only [Function.update_same]
    · intro i hi
      rw [executeRound_of_some bidFn notifyFn userIndex choice clicked st w p hr]
      simp only [Function.update_noteq hi]

/-- Witness for C4 at the concrete two-bidder auction. -/
theorem winner_balance_update_witness :
    activeList exAuction.balances ≠ [] ∧
    ∃ w p,
      resolve 0 ((collectBids exBidFn 0 (activeList exAuction.balances) exAuction.states).1) =
        some (w, p) ∧
      (executeRound exBidFn exNotifyFn 0 0 true exAuction).balances w =
        exAuction.balances w + (if true then 1 else 0) - p ∧
      ∀ i : Fin 2, i ≠ w →
        (executeRound exBidFn exNotifyFn 0 0 true exAuction).balances i =
          exAuction.balances i :=
  ⟨exAuction_active_ne,
    winner_balance_update exBidFn exNotifyFn 0 0 true exAuction exAuction_active_ne⟩

lemma activeList_eq_nil {n : ℕ} {balances : Fin n → ℚ}
    (h : ∀ i, balances i < -1000) : activeList balances = [] := by
  unfold activeList
  rw [List.filter_eq_nil_iff]
  intro i _
  simp only [decide_eq_true_eq, not_le]
  exact h i

/-- C8: a round executed while every bidder is insolvent (balance below
-1000) changes nothing except the round counter: balances, histories and
bidder states are untouched, and no error occurs (the function is total). -/
theorem empty_active_round_noop {n : ℕ} {β : Type} (bidFn : β → ℕ → ℚ × β)
    (notifyFn : β → Bool → ℚ → Option Bool → β)
    (u c : ℕ) (k : Bool) (st : AuctionState n β)
    (h : ∀ i, st.balances i < -1000) :
    executeRound bidFn notifyFn u c k st =
      { st with round_number := st.round_number + 1 } := by
  simp only [executeRound, activeList_eq_nil h]
  rfl

/-- A concrete one-bidder auction whose only bidder is insolvent. -/
def exInsolvent : AuctionState 1 ℚ where
  num_users := 1
  states := fun _ => 0
  balances := fun _ => -2000
  history := fun _ => []
  round_number := 0

/-- Witness for C8 at a concrete insolvent auction. -/
theorem empty_active_round_noop_witness :
    (∀ i, exInsolvent.balances i < -1000) ∧
    executeRound exBidFn exNotifyFn 0 0 true exInsolvent =
      { exInsolvent with round_number := exInsolvent.round_number + 1 } :=
  ⟨by intro i; norm_num [exInsolvent],
    empty_active_round_noop exBidFn exNotifyFn 0 0 true exInsolvent
      (by intro i; norm_num [exInsolvent])⟩

/-! Insolvency: the -1000 threshold and its permanence. -/

lemma mem_activeList_iff {n : ℕ} (balances : Fin n → ℚ) (i : Fin n) :
    i ∈ activeList balances ↔ -1000 ≤ balances i := by
  unfold activeList
  rw [List.mem_filter]
  simp [List.mem_finRange]

lemma executeRound_insolvent_step {n : ℕ} {β : Type} (bidFn : β → ℕ → ℚ × β)
    (notifyFn : β → Bool → ℚ → Option Bool → β)
    (u c : ℕ) (k : Bool) (st : AuctionState n β) (i : Fin n)
    (h : st.balances i < -1000) :
    (executeRound bidFn notifyFn u c k st).balances i = st.balances i ∧
    (executeRound bidFn notifyFn u c k st).states i = st.states i := by
  have hni : i ∉ activeList st.balances := by
    rw [mem_activeList_iff]
    linarith
  cases hr : resolve c
      ((collectBids bidFn u (activeList st.balances) st.states).1) with
  | none =>
    rw [executeRound_of_none bidFn notifyFn u c k st hr]
    exact ⟨rfl, collectBids_states_notMem bidFn u _ _ _ hni⟩
  | some wp =>
    obtain ⟨w, p⟩ := wp
    have hw : w ∈ activeList st.balances := by
      rw [← collectBids_fst bidFn u (activeList st.balances) st.states]
      exact resolve_winner_mem (collectBids_snd_nonneg bidFn u _ _) hr
    have hiw : i ≠ w := fun hh => hni (hh ▸ hw)
    rw [executeRound_of_some bidFn notifyFn u c k st w p hr]
    refine ⟨Function.update_noteq hiw _ _, ?_⟩
    show notifyAll notifyFn w p k (activeList st.balances)
      ((collectBids bidFn u (activeList st.balances) st.states).2) i = st.states i
    rw [notifyAll_states_notMem notifyFn w p k _ _ _ hni]
    exact collectBids_states_notMem bidFn u _ _ _ hni

lemma runRounds_insolvent {n : ℕ} {β : Type} (bidFn : β → ℕ → ℚ × β)
    (notifyFn : β → Bool → ℚ → Option Bool → β) (i : Fin n)
    (oracles : List (ℕ × ℕ × Bool)) :
    ∀ st : AuctionState n β, st.balances i < -1000 →
      (runRounds bidFn notifyFn oracles st).balances i = st.balances i ∧
      (runRounds bidFn notifyFn oracles st).states i = st.states i := by
  induction oracles with
  | nil => intro st _; exact ⟨rfl, rfl⟩
  | cons o rest ih =>
    intro st h
    obtain ⟨u, c, k⟩ := o
    have hstep := executeRound_insolvent_step bidFn notifyFn u c k st i h
    have hnext : (executeRound bidFn notifyFn u c k st).balances i < -1000 := by
      rw [hstep.1]
      exact h
    have hrec := ih (executeRound bidFn notifyFn u c k st) hnext
    simp only [runRounds]
    rw [hrec.1, hrec.2, hstep.1, hstep.2]
    exact ⟨rfl, rfl⟩

/-- C5: membership in the solicited/notified round set is exactly the
-1000 solvency test, the bids of a round are keyed by exactly the active
list, and a bidder whose balance has dropped below -1000 is permanently
excluded: over any further rounds its balance and its bidder state never
change and it never re-enters the active set. -/
theorem insolvent_permanently_excluded {n : ℕ} {β : Type}
    (bidFn : β → ℕ → ℚ × β) (notifyFn : β → Bool → ℚ → Option Bool → β)
    (st : AuctionState n β) (i : Fin n) :
    (i ∈ activeList st.balances ↔ -1000 ≤ st.balances i) ∧
    (∀ u : ℕ,
      ((collectBids bidFn u (activeList st.balances) st.states).1).map Prod.fst =
        activeList st.balances) ∧
    (st.balances i < -1000 →
      ∀ oracles : List (ℕ × ℕ × Bool),
        (runRounds bidFn notifyFn oracles st).balances i = st.balances i ∧
        (runRounds bidFn notifyFn oracles st).states i = st.states i ∧
        i ∉ activeList (runRounds bidFn notifyFn oracles st).balances) := by
  refine ⟨mem_activeList_iff st.balances i, ?_, ?_⟩
  · intro u
    exact collectBids_fst bidFn u _ _
  · intro h oracles
    have hp := runRounds_insolvent bidFn notifyFn i oracles st h
    refine ⟨hp.1, hp.2, ?_⟩
    rw [mem_activeList_iff, hp.1]
    linarith

/-- Witness for C5 at the concrete insolvent auction, running one round. -/
theorem insolvent_permanently_excluded_witness :
    exInsolvent.balances 0 < -1000 ∧
    ((0 : Fin 1) ∈ activeList exInsolvent.balances ↔
      -1000 ≤ exInsolvent.balances 0) ∧
    ((runRounds exBidFn exNotifyFn [(0, 0, true)] exInsolvent).balances 0 =
       exInsolvent.balances 0 ∧
     (runRounds exBidFn exNotifyFn [(0, 0, true)] exInsolvent).states 0 =
       exInsolvent.states 0 ∧
     (0 : Fin 1) ∉ activeList (runRounds exBidFn exNotifyFn [(0, 0, true)] exInsolvent).balances) :=
  ⟨by norm_num [exInsolvent],
    (insolvent_permanently_excluded exBidFn exNotifyFn exInsolvent 0).1,
    (insolvent_permanently_excluded exBidFn exNotifyFn exInsolvent 0).2.2
      (by norm_num [exInsolvent]) [(0, 0, true)]⟩

/-! Concrete evaluation of one auction round (the spec scenario with
bids 0.5 and 0.3 and a click), exhibiting the history update of
auction.py lines 110-111. -/

lemma round3_of_int (q : ℚ) (k : ℤ) (h : q * 1000 = (k : ℚ)) :
    round3 q = (k : ℚ) / 1000 := by
  rw [round3, h, round_intCast]

lemma exAuction_active : activeList exAuction.balances = [0, 1] := by
  decide

lemma exAuction_bids :
    (collectBids exBidFn 0 (activeList exAuction.balances) exAuction.states).1 =
      [((0 : Fin 2), (1 : ℚ)/2), (1, 3/10)] := by
  rw [exAuction_active]
  have hc1 : clampBid (1/2) = 1/2 := by
    rw [clampBid, round3_of_int (1/2) 500 (by norm_num)]
    norm_num
  have hc2 : clampBid (3/10) = 3/10 := by
    rw [clampBid, round3_of_int (3/10) 300 (by norm_num)]
    norm_num
  show [((0 : Fin 2), clampBid (exStates 0)), (1, clampBid ((Function.update exStates 0 (exStates 0)) 1))] =
    [((0 : Fin 2), (1 : ℚ)/2), (1, 3/10)]
  rw [Function.update_noteq (by decide)]
  have he0 : exStates 0 = 1/2 := rfl
  have he1 : exStates 1 = 3/10 := rfl
  rw [he0, he1, hc1, hc2]

lemma exAuction_resolve :
    resolve 0 ((collectBids exBidFn 0 (activeList exAuction.balances) exAuction.states).1) =
      some ((0 : Fin 2), 3/10) := by
  rw [exAuction_bids]
  have hmax : max ((1:ℚ)/2) (3/10) = 1/2 := max_eq_left (by norm_num)
  have hb1 : (((1:ℚ)/2) == 1/2) = true := by simp
  have hb2 : (((3:ℚ)/10) == 1/2) = false := by
    rw [beq_eq_false_iff_ne]
    norm_num
  simp only [resolve, List.map_cons, List.map_nil, listMax, hmax, hb1, hb2,
    List.filter_cons, List.filter_nil, if_true, if_false, Bool.false_eq_true]
  norm_num

/-- C1 fails on the code: in the concrete two-bidder round (bids 0.5 and
0.3, click), the winner history receives TWO entries (one per bidder in
the loop of auction.py lines 110-111, which appends the winner balance
to the winner history) and the loser history receives none, instead of
one entry per bidder as the specification states. -/
theorem history_appends_only_winner :
    (executeRound exBidFn exNotifyFn 0 0 true exAuction).history 0 =
      [7/10, 7/10] ∧
    (executeRound exBidFn exNotifyFn 0 0 true exAuction).history 1 = [] ∧
    (executeRound exBidFn exNotifyFn 0 0 true exAuction).round_number = 1 := by
  rw [executeRound_of_some exBidFn exNotifyFn 0 0 true exAuction 0 (3/10)
    exAuction_resolve]
  refine ⟨?_, ?_, rfl⟩
  · show Function.update exAuction.history 0
      (exAuction.history 0 ++ List.replicate 2
        (Function.update exAuction.balances 0
          (exAuction.balances 0 + (if true then 1 else 0) - 3/10) 0)) 0 =
      [7/10, 7/10]
    rw [Function.update_same, Function.update_same]
    have hb : exAuction.balances 0 + (if true then 1 else 0) - 3/10 = 7/10 := by
      show (0 : ℚ) + 1 - 3/10 = 7/10
      norm_num
    rw [hb]
    rfl
  · show Function.update exAuction.history 0
      (exAuction.history 0 ++ List.replicate 2
        (Function.update exAuction.balances 0
          (exAuction.balances 0 + (if true then 1 else 0) - 3/10) 0)) 1 =
      []
    rw [Function.update_noteq (by decide)]
    rfl
